import Mathlib

/-!
A shallow embedding of src/primeFieldElement.py.

Python integers are modelled by Int.  For a positive modulus, Python's %
agrees with Int's % (Int.emod): both return the least non-negative residue.
Exceptions are modelled by an Except monad with one error constructor per
distinct raise site (the spec's error taxonomy: InvalidResidue,
FieldMismatch, DivisionByZero, NotInvertible, and the inverse routine's
internal-consistency failure).
-/

/-- The error taxonomy of the spec, one constructor per raise site of the
source: invalid residue at construction or integer division, modulus
mismatch on binary operations, division by a zero element, inverse of a
non-invertible element (gcd == p), and the extended-Euclidean
internal-consistency failure (gcd neither 1 nor p). -/
inductive FieldError where
  | invalidResidue
  | fieldMismatch
  | divisionByZero
  | notInvertible
  | algorithmFailure
deriving DecidableEq

/-- An element of the prime field: residue a and modulus p, both Python ints. -/
structure PrimeFieldElement where
  a : Int
  p : Int
deriving DecidableEq

instance : DecidableEq (Except FieldError PrimeFieldElement) := fun x y =>
  match x, y with
  | .error e, .error f => decidable_of_iff (e = f) (by simp)
  | .error _, .ok _ => isFalse (by simp)
  | .ok _, .error _ => isFalse (by simp)
  | .ok v, .ok w => decidable_of_iff (v = w) (by simp)

/-- __init__: raises (InvalidResidue) when a >= p or a < 0, otherwise the
instance carries exactly (a, p). -/
def PrimeFieldElement.mk' (a p : Int) : Except FieldError PrimeFieldElement :=
  if a ≥ p ∨ a < 0 then .error .invalidResidue else .ok ⟨a, p⟩

/-- The class invariant: 0 <= a < p. -/
def PrimeFieldElement.Valid (x : PrimeFieldElement) : Prop :=
  0 ≤ x.a ∧ x.a < x.p

instance (x : PrimeFieldElement) : Decidable x.Valid :=
  inferInstanceAs (Decidable (_ ∧ _))

/-- __add__ on a FieldElement operand. -/
def PrimeFieldElement.add (x y : PrimeFieldElement) :
    Except FieldError PrimeFieldElement :=
  if x.p ≠ y.p then .error .fieldMismatch
  else PrimeFieldElement.mk' ((x.a + y.a) % x.p) x.p

/-- __add__ on a bare-integer operand. -/
def PrimeFieldElement.addInt (x : PrimeFieldElement) (k : Int) :
    Except FieldError PrimeFieldElement :=
  PrimeFieldElement.mk' ((x.a + k) % x.p) x.p

/-- __sub__ on a FieldElement operand. -/
def PrimeFieldElement.sub (x y : PrimeFieldElement) :
    Except FieldError PrimeFieldElement :=
  if x.p ≠ y.p then .error .fieldMismatch
  else PrimeFieldElement.mk' ((x.a - y.a) % x.p) x.p

/-- __sub__ on a bare-integer operand. -/
def PrimeFieldElement.subInt (x : PrimeFieldElement) (k : Int) :
    Except FieldError PrimeFieldElement :=
  PrimeFieldElement.mk' ((x.a - k) % x.p) x.p

/-- __mul__ on a FieldElement operand. -/
def PrimeFieldElement.mul (x y : PrimeFieldElement) :
    Except FieldError PrimeFieldElement :=
  if x.p ≠ y.p then .error .fieldMismatch
  else PrimeFieldElement.mk' ((x.a * y.a) % x.p) x.p

/-- __mul__ on a bare-integer operand. -/
def PrimeFieldElement.mulInt (x : PrimeFieldElement) (k : Int) :
    Except FieldError PrimeFieldElement :=
  PrimeFieldElement.mk' ((x.a * k) % x.p) x.p

/-- __gcdExtended: the recursive extended Euclidean helper.  The source is
invoked only with non-negative arguments (a = self.a with 0 <= a, b = self.p),
on which Python's % and // agree with the natural-number % and /, so the
helper is embedded on ℕ; the Bezout coefficients are Ints. -/
def gcdExtended (a b : Nat) : Nat × Int × Int :=
  if h : a = 0 then (b, 0, 1)
  else
    let r := gcdExtended (b % a) a
    (r.1, r.2.2 - (b / a : Nat) * r.2.1, r.2.1)
termination_by a
decreasing_by exact Nat.mod_lt b (Nat.pos_of_ne_zero h)

/-- inverse: runs the extended Euclidean algorithm on (self.a, self.p);
gcd == p raises NotInvertible, gcd == 1 returns the Bezout coefficient x
reduced mod p, any other gcd raises the internal-consistency error. -/
def PrimeFieldElement.inverse (x : PrimeFieldElement) :
    Except FieldError PrimeFieldElement :=
  let r := gcdExtended x.a.toNat x.p.toNat
  if (r.1 : Int) = x.p then .error .notInvertible
  else if r.1 = 1 then PrimeFieldElement.mk' (r.2.1 % x.p) x.p
  else .error .algorithmFailure

/-- __truediv__ on a FieldElement operand: mismatch check, zero check,
then self * other.inverse(). -/
def PrimeFieldElement.div (x y : PrimeFieldElement) :
    Except FieldError PrimeFieldElement :=
  if x.p ≠ y.p then .error .fieldMismatch
  else if y.a = 0 then .error .divisionByZero
  else
    match y.inverse with
    | .error e => .error e
    | .ok inv => x.mul inv

/-- __truediv__ on a bare-integer operand: range check, then wrap and
delegate to the FieldElement-divisor path. -/
def PrimeFieldElement.divInt (x : PrimeFieldElement) (k : Int) :
    Except FieldError PrimeFieldElement :=
  if k ≥ x.p ∨ k < 0 then .error .invalidResidue
  else
    match PrimeFieldElement.mk' k x.p with
    | .error e => .error e
    | .ok o => x.div o

/-- __pow__ with the exponent already extracted as a plain integer
(exp = other.a when other is a PrimeFieldElement, exp = other otherwise). -/
def PrimeFieldElement.pow (x : PrimeFieldElement) (e : Int) :
    Except FieldError PrimeFieldElement :=
  if h0 : e = 0 then PrimeFieldElement.mk' 1 x.p
  else if hneg : e < 0 then
    match x.inverse with
    | .error err => .error err
    | .ok inv => inv.pow (-e)
  else PrimeFieldElement.mk' ((x.a ^ e.toNat) % x.p) x.p
termination_by (if e < 0 then 1 else 0 : Nat)
decreasing_by simp_all; omega

/-- __pow__ on a FieldElement exponent: only the raw residue is used,
with no modulus-compatibility check and no reduction mod (p - 1). -/
def PrimeFieldElement.powElem (x e : PrimeFieldElement) :
    Except FieldError PrimeFieldElement :=
  x.pow e.a

theorem mk'_ok_of {a p : Int} (h1 : 0 ≤ a) (h2 : a < p) :
    PrimeFieldElement.mk' a p = .ok ⟨a, p⟩ := by
  unfold PrimeFieldElement.mk'
  rw [if_neg]
  omega

theorem mk'_error_of {a p : Int} (h : a < 0 ∨ p ≤ a) :
    PrimeFieldElement.mk' a p = .error .invalidResidue := by
  unfold PrimeFieldElement.mk'
  rw [if_pos]
  omega

theorem ok_of_mk' {a p : Int} {r : PrimeFieldElement}
    (h : PrimeFieldElement.mk' a p = .ok r) :
    r.Valid ∧ r.a = a ∧ r.p = p := by
  unfold PrimeFieldElement.mk' at h
  split_ifs at h with hc
  simp only [Except.ok.injEq] at h
  subst h
  unfold PrimeFieldElement.Valid
  dsimp
  omega

theorem valid_pos_p {x : PrimeFieldElement} (h : x.Valid) : 0 < x.p := by
  obtain ⟨h1, h2⟩ := h
  omega

theorem inverse_ok_shape {x v : PrimeFieldElement} (h : x.inverse = .ok v) :
    v.Valid ∧ v.p = x.p := by
  simp only [PrimeFieldElement.inverse] at h
  split_ifs at h
  exact ⟨(ok_of_mk' h).1, (ok_of_mk' h).2.2⟩

theorem add_ok_shape {x y r : PrimeFieldElement} (h : x.add y = .ok r) :
    r.Valid ∧ r.p = x.p := by
  unfold PrimeFieldElement.add at h
  split_ifs at h
  exact ⟨(ok_of_mk' h).1, (ok_of_mk' h).2.2⟩

theorem sub_ok_shape {x y r : PrimeFieldElement} (h : x.sub y = .ok r) :
    r.Valid ∧ r.p = x.p := by
  unfold PrimeFieldElement.sub at h
  split_ifs at h
  exact ⟨(ok_of_mk' h).1, (ok_of_mk' h).2.2⟩

theorem mul_ok_shape {x y r : PrimeFieldElement} (h : x.mul y = .ok r) :
    r.Valid ∧ r.p = x.p := by
  unfold PrimeFieldElement.mul at h
  split_ifs at h
  exact ⟨(ok_of_mk' h).1, (ok_of_mk' h).2.2⟩

theorem div_ok_shape {x y r : PrimeFieldElement} (h : x.div y = .ok r) :
    r.Valid ∧ r.p = x.p := by
  unfold PrimeFieldElement.div at h
  split_ifs at h
  cases hinv : y.inverse with
  | error e => rw [hinv] at h; simp at h
  | ok inv => rw [hinv] at h; exact mul_ok_shape h

theorem divInt_ok_shape {x : PrimeFieldElement} {k : Int} {r : PrimeFieldElement}
    (h : x.divInt k = .ok r) : r.Valid ∧ r.p = x.p := by
  unfold PrimeFieldElement.divInt at h
  split_ifs at h
  cases hmk : PrimeFieldElement.mk' k x.p with
  | error e => rw [hmk] at h; simp at h
  | ok o => rw [hmk] at h; exact div_ok_shape h

theorem pow_ok_shape {x : PrimeFieldElement} {e : Int} {r : PrimeFieldElement}
    (h : x.pow e = .ok r) : r.Valid ∧ r.p = x.p := by
  rcases lt_trichotomy e 0 with he | he | he
  · rw [PrimeFieldElement.pow, dif_neg (by omega : ¬e = 0), dif_pos he] at h
    cases hinv : x.inverse with
    | error err => rw [hinv] at h; simp at h
    | ok inv =>
      rw [hinv] at h
      dsimp at h
      have hs := inverse_ok_shape hinv
      rw [PrimeFieldElement.pow, dif_neg (by omega : ¬-e = 0),
        dif_neg (by omega : ¬-e < 0)] at h
      exact ⟨(ok_of_mk' h).1, by rw [(ok_of_mk' h).2.2, hs.2]⟩
  · subst he
    rw [PrimeFieldElement.pow, dif_pos rfl] at h
    exact ⟨(ok_of_mk' h).1, (ok_of_mk' h).2.2⟩
  · rw [PrimeFieldElement.pow, dif_neg (by omega : ¬e = 0),
      dif_neg (by omega : ¬e < 0)] at h
    exact ⟨(ok_of_mk' h).1, (ok_of_mk' h).2.2⟩

/-- C3: the class invariant 0 <= a < p (hence 0 < p) holds for every
successfully constructed instance and is preserved, over the same modulus,
by every operation that returns successfully — element and bare-integer
variants alike, negative intermediate differences included. -/
theorem invariant_preservation :
    (∀ (a p : Int) (r : PrimeFieldElement),
      PrimeFieldElement.mk' a p = .ok r → r.Valid ∧ 0 < r.p) ∧
    (∀ x y r : PrimeFieldElement,
      x.add y = .ok r → r.Valid ∧ r.p = x.p ∧ 0 < r.p) ∧
    (∀ x y r : PrimeFieldElement,
      x.sub y = .ok r → r.Valid ∧ r.p = x.p ∧ 0 < r.p) ∧
    (∀ x y r : PrimeFieldElement,
      x.mul y = .ok r → r.Valid ∧ r.p = x.p ∧ 0 < r.p) ∧
    (∀ x y r : PrimeFieldElement,
      x.div y = .ok r → r.Valid ∧ r.p = x.p ∧ 0 < r.p) ∧
    (∀ (x : PrimeFieldElement) (k : Int) (r : PrimeFieldElement),
      x.addInt k = .ok r → r.Valid ∧ r.p = x.p ∧ 0 < r.p) ∧
    (∀ (x : PrimeFieldElement) (k : Int) (r : PrimeFieldElement),
      x.subInt k = .ok r → r.Valid ∧ r.p = x.p ∧ 0 < r.p) ∧
    (∀ (x : PrimeFieldElement) (k : Int) (r : PrimeFieldElement),
      x.mulInt k = .ok r → r.Valid ∧ r.p = x.p ∧ 0 < r.p) ∧
    (∀ (x : PrimeFieldElement) (k : Int) (r : PrimeFieldElement),
      x.divInt k = .ok r → r.Valid ∧ r.p = x.p ∧ 0 < r.p) ∧
    (∀ (x : PrimeFieldElement) (e : Int) (r : PrimeFieldElement),
      x.pow e = .ok r → r.Valid ∧ r.p = x.p ∧ 0 < r.p) ∧
    (∀ x r : PrimeFieldElement,
      x.inverse = .ok r → r.Valid ∧ r.p = x.p ∧ 0 < r.p) := by
  refine ⟨fun a p r h => ⟨(ok_of_mk' h).1, valid_pos_p (ok_of_mk' h).1⟩,
    fun x y r h => ?_, fun x y r h => ?_, fun x y r h => ?_, fun x y r h => ?_,
    fun x k r h => ?_, fun x k r h => ?_, fun x k r h => ?_, fun x k r h => ?_,
    fun x e r h => ?_, fun x r h => ?_⟩
  · exact ⟨(add_ok_shape h).1, (add_ok_shape h).2, valid_pos_p (add_ok_shape h).1⟩
  · exact ⟨(sub_ok_shape h).1, (sub_ok_shape h).2, valid_pos_p (sub_ok_shape h).1⟩
  · exact ⟨(mul_ok_shape h).1, (mul_ok_shape h).2, valid_pos_p (mul_ok_shape h).1⟩
  · exact ⟨(div_ok_shape h).1, (div_ok_shape h).2, valid_pos_p (div_ok_shape h).1⟩
  · unfold PrimeFieldElement.addInt at h
    exact ⟨(ok_of_mk' h).1, (ok_of_mk' h).2.2, valid_pos_p (ok_of_mk' h).1⟩
  · unfold PrimeFieldElement.subInt at h
    exact ⟨(ok_of_mk' h).1, (ok_of_mk' h).2.2, valid_pos_p (ok_of_mk' h).1⟩
  · unfold PrimeFieldElement.mulInt at h
    exact ⟨(ok_of_mk' h).1, (ok_of_mk' h).2.2, valid_pos_p (ok_of_mk' h).1⟩
  · exact ⟨(divInt_ok_shape h).1, (divInt_ok_shape h).2,
      valid_pos_p (divInt_ok_shape h).1⟩
  · exact ⟨(pow_ok_shape h).1, (pow_ok_shape h).2, valid_pos_p (pow_ok_shape h).1⟩
  · exact ⟨(inverse_ok_shape h).1, (inverse_ok_shape h).2,
      valid_pos_p (inverse_ok_shape h).1⟩

theorem invariant_preservation_witness :
    PrimeFieldElement.Valid ⟨4, 7⟩ ∧
    (⟨4, 7⟩ : PrimeFieldElement).p = (⟨2, 7⟩ : PrimeFieldElement).p ∧
    (0 : Int) < (⟨4, 7⟩ : PrimeFieldElement).p :=
  invariant_preservation.2.2.2.2.2.2.1 ⟨2, 7⟩ 5 ⟨4, 7⟩ (by decide)

/-- C5: binary operations between elements of different moduli fail with
FieldMismatch; dividing by a zero element fails with DivisionByZero;
dividing by a bare integer out of [0, p) fails with InvalidResidue,
otherwise the integer is wrapped and the element-divisor path is taken;
with no error, division is multiplication by the divisor's inverse. -/
theorem binary_error_contract :
    (∀ x y : PrimeFieldElement, x.p ≠ y.p →
      x.add y = .error .fieldMismatch ∧ x.sub y = .error .fieldMismatch ∧
      x.mul y = .error .fieldMismatch ∧ x.div y = .error .fieldMismatch) ∧
    (∀ x y : PrimeFieldElement, x.p = y.p → y.a = 0 →
      x.div y = .error .divisionByZero) ∧
    (∀ (x : PrimeFieldElement) (k : Int), k < 0 ∨ x.p ≤ k →
      x.divInt k = .error .invalidResidue) ∧
    (∀ (x : PrimeFieldElement) (k : Int), 0 ≤ k → k < x.p →
      x.divInt k = x.div ⟨k, x.p⟩) ∧
    (∀ x y inv : PrimeFieldElement, x.p = y.p → y.a ≠ 0 →
      y.inverse = .ok inv → x.div y = x.mul inv) := by
  refine ⟨fun x y h => ?_, fun x y hp hz => ?_, fun x k h => ?_,
    fun x k h1 h2 => ?_, fun x y inv hp hz hinv => ?_⟩
  · unfold PrimeFieldElement.add PrimeFieldElement.sub PrimeFieldElement.mul
      PrimeFieldElement.div
    simp [if_pos h]
  · unfold PrimeFieldElement.div
    rw [if_neg (by simp [hp]), if_pos hz]
  · unfold PrimeFieldElement.divInt
    rw [if_pos (by omega)]
  · unfold PrimeFieldElement.divInt
    rw [if_neg (by omega), mk'_ok_of h1 h2]
  · unfold PrimeFieldElement.div
    rw [if_neg (by simp [hp]), if_neg hz, hinv]

theorem binary_error_contract_witness :
    PrimeFieldElement.add ⟨1, 5⟩ ⟨1, 7⟩ = .error .fieldMismatch ∧
    PrimeFieldElement.div ⟨3, 7⟩ ⟨0, 7⟩ = .error .divisionByZero ∧
    PrimeFieldElement.divInt ⟨3, 7⟩ (-2) = .error .invalidResidue ∧
    PrimeFieldElement.divInt ⟨3, 7⟩ 2 = PrimeFieldElement.div ⟨3, 7⟩ ⟨2, 7⟩ :=
  ⟨(binary_error_contract.1 ⟨1, 5⟩ ⟨1, 7⟩ (by decide)).1,
   binary_error_contract.2.1 ⟨3, 7⟩ ⟨0, 7⟩ rfl rfl,
   binary_error_contract.2.2.1 ⟨3, 7⟩ (-2) (by decide),
   binary_error_contract.2.2.2.1 ⟨3, 7⟩ 2 (by decide) (by decide)⟩

/-- C4: construction succeeds exactly on 0 <= a < p, carrying exactly (a, p)
with no normalisation, and fails with InvalidResidue exactly when a < 0 or
a >= p. -/
theorem construction_contract (a p : Int) :
    (0 ≤ a ∧ a < p → PrimeFieldElement.mk' a p = .ok ⟨a, p⟩) ∧
    (a < 0 ∨ p ≤ a → PrimeFieldElement.mk' a p = .error .invalidResidue) ∧
    (∀ r, PrimeFieldElement.mk' a p = .ok r → r.a = a ∧ r.p = p) := by
  refine ⟨fun h => mk'_ok_of h.1 h.2, fun h => mk'_error_of h, fun r h => ?_⟩
  exact (ok_of_mk' h).2

theorem construction_contract_witness :
    PrimeFieldElement.mk' 3 7 = .ok ⟨3, 7⟩ ∧
    PrimeFieldElement.mk' 9 7 = .error .invalidResidue ∧
    PrimeFieldElement.mk' (-1) 7 = .error .invalidResidue :=
  ⟨(construction_contract 3 7).1 (by decide),
   (construction_contract 9 7).2.1 (by decide),
   (construction_contract (-1) 7).2.1 (by decide)⟩

/-- C10: addition and multiplication are commutative: for elements over the
same modulus, x + y = y + x and x * y = y * x. -/
theorem add_mul_comm (x y : PrimeFieldElement) (hp : x.p = y.p) :
    x.add y = y.add x ∧ x.mul y = y.mul x := by
  unfold PrimeFieldElement.add PrimeFieldElement.mul
  rw [hp, Int.add_comm, Int.mul_comm]
  exact ⟨rfl, rfl⟩

theorem add_mul_comm_witness :
    PrimeFieldElement.add ⟨2, 7⟩ ⟨3, 7⟩ = PrimeFieldElement.add ⟨3, 7⟩ ⟨2, 7⟩ ∧
    PrimeFieldElement.mul ⟨2, 7⟩ ⟨3, 7⟩ = PrimeFieldElement.mul ⟨3, 7⟩ ⟨2, 7⟩ :=
  add_mul_comm ⟨2, 7⟩ ⟨3, 7⟩ rfl

/-- C6 counterexample: the element (0, 1) is constructible, yet pow x 0 on
it does not return the element (1, 1): the constructor rejects residue 1
for modulus 1, so the zero-exponent branch raises InvalidResidue. -/
theorem pow_zero_cex :
    PrimeFieldElement.mk' 0 1 = .ok ⟨0, 1⟩ ∧
    PrimeFieldElement.pow ⟨0, 1⟩ 0 ≠ .ok ⟨1, 1⟩ ∧
    PrimeFieldElement.pow ⟨0, 1⟩ 0 = .error .invalidResidue := by
  refine ⟨by decide, ?_, ?_⟩ <;>
    simp [PrimeFieldElement.pow, PrimeFieldElement.mk']

/-- C6 (amended): for every element whose modulus exceeds 1 (in particular
over any prime modulus), pow x 0 returns the identity element (1, x.p),
regardless of the residue, including residue 0. -/
theorem pow_zero_identity (x : PrimeFieldElement) (hp : 1 < x.p) :
    x.pow 0 = .ok ⟨1, x.p⟩ := by
  rw [PrimeFieldElement.pow]
  exact mk'_ok_of (by omega) hp

theorem pow_zero_identity_witness : PrimeFieldElement.pow ⟨0, 7⟩ 0 = .ok ⟨1, 7⟩ :=
  pow_zero_identity ⟨0, 7⟩ (by decide)

theorem gcdExtended_fst (a : Nat) : ∀ b : Nat, (gcdExtended a b).1 = Nat.gcd a b := by
  induction a using Nat.strong_induction_on with
  | _ a ih =>
    intro b
    rw [gcdExtended]
    split_ifs with h
    · subst h
      simp
    · dsimp only
      rw [ih (b % a) (Nat.mod_lt b (Nat.pos_of_ne_zero h)) a, Nat.gcd_rec a b]

theorem gcdExtended_bezout (a : Nat) :
    ∀ b : Nat, ((gcdExtended a b).1 : Int) =
      a * (gcdExtended a b).2.1 + b * (gcdExtended a b).2.2 := by
  induction a using Nat.strong_induction_on with
  | _ a ih =>
    intro b
    rw [gcdExtended]
    split_ifs with h
    · subst h
      simp
    · dsimp only
      have H := ih (b % a) (Nat.mod_lt b (Nat.pos_of_ne_zero h)) a
      have hmod : ((b % a : Nat) : Int) = (b : Int) - (a : Int) * ((b / a : Nat) : Int) := by
        have := Nat.mod_add_div b a
        omega
      rw [H, hmod]
      ring

/-- C2: the extended Euclidean helper terminates on every pair of
non-negative integers (it is a total function) and returns (g, x, y) with
g = a * x + b * y and g = gcd a b, via the base case (a = 0 gives (b, 0, 1))
and the recursive step on (b mod a, a) with back-substitution
x = y1 - (b / a) * x1, y = x1. -/
theorem gcdExtended_correct (a b : Nat) :
    (gcdExtended a b).1 = Nat.gcd a b ∧
    ((gcdExtended a b).1 : Int) =
      a * (gcdExtended a b).2.1 + b * (gcdExtended a b).2.2 ∧
    gcdExtended 0 b = (b, 0, 1) ∧
    (a ≠ 0 → gcdExtended a b =
      ((gcdExtended (b % a) a).1,
       (gcdExtended (b % a) a).2.2 - ((b / a : Nat) : Int) * (gcdExtended (b % a) a).2.1,
       (gcdExtended (b % a) a).2.1)) := by
  refine ⟨gcdExtended_fst a b, gcdExtended_bezout a b,
    by rw [gcdExtended, dif_pos rfl], fun h => ?_⟩
  rw [gcdExtended, dif_neg h]

theorem gcdExtended_correct_witness :
    gcdExtended 6 4 =
      ((gcdExtended (4 % 6) 6).1,
       (gcdExtended (4 % 6) 6).2.2 - ((4 / 6 : Nat) : Int) * (gcdExtended (4 % 6) 6).2.1,
       (gcdExtended (4 % 6) 6).2.1) :=
  (gcdExtended_correct 6 4).2.2.2 (by decide)

theorem inverse_ok_of_coprime (x : PrimeFieldElement) (hv : x.Valid) (hp : 1 < x.p)
    (hg : Nat.gcd x.a.toNat x.p.toNat = 1) :
    x.inverse = .ok ⟨(gcdExtended x.a.toNat x.p.toNat).2.1 % x.p, x.p⟩ ∧
    x.a * ((gcdExtended x.a.toNat x.p.toNat).2.1 % x.p) % x.p = 1 := by
  have hfst : (gcdExtended x.a.toNat x.p.toNat).1 = 1 := by
    rw [gcdExtended_fst]
    exact hg
  have hap : (x.a.toNat : Int) = x.a := Int.toNat_of_nonneg hv.1
  have hpp : (x.p.toNat : Int) = x.p := Int.toNat_of_nonneg (by omega)
  constructor
  · simp only [PrimeFieldElement.inverse, hfst]
    rw [if_neg (by omega), if_pos trivial]
    exact mk'_ok_of (Int.emod_nonneg _ (by omega)) (Int.emod_lt_of_pos _ (by omega))
  · have hbez := gcdExtended_bezout x.a.toNat x.p.toNat
    rw [hfst, hap, hpp] at hbez
    have hlin : x.a * (gcdExtended x.a.toNat x.p.toNat).2.1 =
        1 + x.p * (-(gcdExtended x.a.toNat x.p.toNat).2.2) := by
      push_cast at hbez
      linarith
    have h1 : x.a * (gcdExtended x.a.toNat x.p.toNat).2.1 % x.p = 1 := by
      rw [hlin, Int.add_mul_emod_self_left, Int.emod_eq_of_lt (by omega) hp]
    calc x.a * ((gcdExtended x.a.toNat x.p.toNat).2.1 % x.p) % x.p
        = x.a % x.p * ((gcdExtended x.a.toNat x.p.toNat).2.1 % x.p % x.p) % x.p := by
          rw [← Int.mul_emod]
      _ = x.a % x.p * ((gcdExtended x.a.toNat x.p.toNat).2.1 % x.p) % x.p := by
          rw [Int.emod_emod_of_dvd _ dvd_rfl]
      _ = x.a * (gcdExtended x.a.toNat x.p.toNat).2.1 % x.p := by
          rw [← Int.mul_emod]
      _ = 1 := h1

theorem coprime_of_prime {x : PrimeFieldElement} {q : Nat} (hv : x.Valid)
    (hpq : x.p = (q : Int)) (hq : q.Prime) (ha : x.a ≠ 0) :
    Nat.gcd x.a.toNat x.p.toNat = 1 := by
  obtain ⟨hv1, hv2⟩ := hv
  have h1 : x.p.toNat = q := by omega
  have h2 : 0 < x.a.toNat := by omega
  have h3 : x.a.toNat < q := by omega
  rw [h1]
  exact Nat.coprime_comm.mp
    ((Nat.Prime.coprime_iff_not_dvd hq).mpr (Nat.not_dvd_of_pos_of_lt h2 h3))

/-- C1: over a prime modulus, inverse returns exactly the Bezout
coefficient of gcdExtended (self.a, self.p) reduced into [0, p), and
multiplying the element by it gives the identity element (1, p). -/
theorem inverse_law (x : PrimeFieldElement) (q : Nat) (hv : x.Valid)
    (hpq : x.p = (q : Int)) (hq : q.Prime) (ha : x.a ≠ 0) :
    x.inverse = .ok ⟨(gcdExtended x.a.toNat x.p.toNat).2.1 % x.p, x.p⟩ ∧
    x.mul ⟨(gcdExtended x.a.toNat x.p.toNat).2.1 % x.p, x.p⟩ = .ok ⟨1, x.p⟩ := by
  have hp : 1 < x.p := by
    have := hq.two_le
    omega
  obtain ⟨h1, h2⟩ := inverse_ok_of_coprime x hv hp (coprime_of_prime hv hpq hq ha)
  refine ⟨h1, ?_⟩
  unfold PrimeFieldElement.mul
  rw [if_neg (by simp)]
  dsimp only
  rw [h2]
  exact mk'_ok_of (by omega) hp

theorem inverse_law_witness :
    PrimeFieldElement.inverse ⟨3, 7⟩ =
      .ok ⟨(gcdExtended (3 : Int).toNat (7 : Int).toNat).2.1 % 7, 7⟩ ∧
    PrimeFieldElement.mul ⟨3, 7⟩
      ⟨(gcdExtended (3 : Int).toNat (7 : Int).toNat).2.1 % 7, 7⟩ = .ok ⟨1, 7⟩ :=
  inverse_law ⟨3, 7⟩ 7 (by decide) (by norm_num) (by norm_num) (by decide)

theorem inverse_ok_gcd {x r : PrimeFieldElement} (h : x.inverse = .ok r) :
    Nat.gcd x.a.toNat x.p.toNat = 1 := by
  simp only [PrimeFieldElement.inverse] at h
  split_ifs at h with h1 h2
  rw [gcdExtended_fst] at h2
  exact h2

/-- C8: for a valid element, inverse fails with NotInvertible exactly when
the residue is 0; it can return a value only when the extended-Euclidean
gcd is 1; a gcd other than 1 never yields a value; and the leftover gcd
case (composite modulus) surfaces the distinct internal-consistency error,
reached concretely at the element (2, 4). -/
theorem inverse_error_taxonomy :
    (∀ x : PrimeFieldElement, x.Valid →
      ((x.a = 0 → x.inverse = .error .notInvertible) ∧
       (x.inverse = .error .notInvertible → x.a = 0) ∧
       (∀ r, x.inverse = .ok r → Nat.gcd x.a.toNat x.p.toNat = 1) ∧
       (Nat.gcd x.a.toNat x.p.toNat ≠ 1 → ∀ r, x.inverse ≠ .ok r))) ∧
    PrimeFieldElement.inverse ⟨2, 4⟩ = .error .algorithmFailure := by
  constructor
  · intro x hv
    obtain ⟨hv1, hv2⟩ := hv
    refine ⟨?_, ?_, fun r h => inverse_ok_gcd h, fun hg r h => hg (inverse_ok_gcd h)⟩
    · intro h0
      have ha : x.a.toNat = 0 := by omega
      simp only [PrimeFieldElement.inverse, ha]
      rw [gcdExtended, dif_pos rfl]
      dsimp only
      rw [if_pos (Int.toNat_of_nonneg (by omega))]
    · intro h
      by_contra ha
      have hpos : 0 < x.a.toNat := by omega
      have hdvd : (gcdExtended x.a.toNat x.p.toNat).1 ∣ x.a.toNat := by
        rw [gcdExtended_fst]
        exact Nat.gcd_dvd_left _ _
      have hle : (gcdExtended x.a.toNat x.p.toNat).1 ≤ x.a.toNat :=
        Nat.le_of_dvd hpos hdvd
      simp only [PrimeFieldElement.inverse] at h
      split_ifs at h with h1 h2
      · omega
      · unfold PrimeFieldElement.mk' at h
        split_ifs at h <;> simp at h
      · simp at h
  · simp [PrimeFieldElement.inverse, gcdExtended]

theorem inverse_error_taxonomy_witness :
    PrimeFieldElement.inverse ⟨0, 7⟩ = .error .notInvertible :=
  (inverse_error_taxonomy.1 ⟨0, 7⟩ (by decide)).1 rfl

theorem inverse_unique {p u v w : Int} (hp : 1 < p) (hv : 0 ≤ v) (hv2 : v < p)
    (hw : 0 ≤ w) (hw2 : w < p) (h1 : u * v % p = 1) (h2 : u * w % p = 1) :
    v = w := by
  have e1 : u * v ≡ 1 [ZMOD p] := by
    show _ % _ = _ % _
    rw [h1, Int.emod_eq_of_lt (by omega) hp]
  have e2 : u * w ≡ 1 [ZMOD p] := by
    show _ % _ = _ % _
    rw [h2, Int.emod_eq_of_lt (by omega) hp]
  have hvw : v ≡ w [ZMOD p] := by
    calc v = v * 1 := (mul_one v).symm
      _ ≡ v * (u * w) [ZMOD p] := (Int.ModEq.mul_left v e2).symm
      _ = u * v * w := by ring
      _ ≡ 1 * w [ZMOD p] := Int.ModEq.mul_right w e1
      _ = w := one_mul w
  have hvw' : v % p = w % p := hvw
  rw [Int.emod_eq_of_lt hv hv2, Int.emod_eq_of_lt hw hw2] at hvw'
  exact hvw'

theorem pow_pos_eval (x : PrimeFieldElement) {n : Int} (hp : 0 < x.p) (hn : 0 < n) :
    x.pow n = .ok ⟨x.a ^ n.toNat % x.p, x.p⟩ := by
  rw [PrimeFieldElement.pow, dif_neg (by omega), dif_neg (by omega)]
  exact mk'_ok_of (Int.emod_nonneg _ (by omega)) (Int.emod_lt_of_pos _ hp)

theorem pow_neg_eval (x inv : PrimeFieldElement) {n : Int} (hn : 0 < n)
    (hinv : x.inverse = .ok inv) : x.pow (-n) = inv.pow n := by
  rw [PrimeFieldElement.pow, dif_neg (by omega), dif_pos (by omega), hinv]
  dsimp only
  rw [neg_neg]

/-- C7 counterexample: the valid element (2, 4) with nonzero residue and
n = 2 falsifies the claim as stated: pow x (-2) fails with the
internal-consistency error while inverse applied to pow x 2 fails with
NotInvertible, so the two computations are observably different. -/
theorem pow_neg_cex :
    PrimeFieldElement.Valid ⟨2, 4⟩ ∧
    (⟨2, 4⟩ : PrimeFieldElement).a ≠ 0 ∧ (0 : Int) < 2 ∧
    PrimeFieldElement.pow ⟨2, 4⟩ (-2) = .error .algorithmFailure ∧
    (PrimeFieldElement.pow ⟨2, 4⟩ 2).bind PrimeFieldElement.inverse =
      .error .notInvertible ∧
    PrimeFieldElement.pow ⟨2, 4⟩ (-2) ≠
      (PrimeFieldElement.pow ⟨2, 4⟩ 2).bind PrimeFieldElement.inverse := by
  have h1 : PrimeFieldElement.pow ⟨2, 4⟩ (-2) = .error .algorithmFailure := by
    simp [PrimeFieldElement.pow, PrimeFieldElement.inverse, gcdExtended]
  have h2 : (PrimeFieldElement.pow ⟨2, 4⟩ 2).bind PrimeFieldElement.inverse =
      .error .notInvertible := by
    simp [PrimeFieldElement.pow, PrimeFieldElement.inverse, gcdExtended,
      PrimeFieldElement.mk', Except.bind]
  refine ⟨by decide, by decide, by decide, h1, h2, ?_⟩
  rw [h1, h2]
  simp

/-- C7 (amended): over a prime modulus, for every valid element with
nonzero residue and every n > 0, pow x (-n) succeeds and equals inverse
applied to the (successful) result of pow x n. -/
theorem pow_neg_consistency (x : PrimeFieldElement) (q : Nat) (n : Int)
    (hv : x.Valid) (hpq : x.p = (q : Int)) (hq : q.Prime) (ha : x.a ≠ 0)
    (hn : 0 < n) :
    x.pow (-n) = (x.pow n).bind PrimeFieldElement.inverse ∧
    ∃ r, x.pow (-n) = .ok r := by
  have hv1 := hv.1
  have hv2 := hv.2
  have hp1 : 1 < x.p := by
    have := hq.two_le
    omega
  have hp0 : 0 < x.p := by omega
  obtain ⟨hinv1, hinv2⟩ :=
    inverse_ok_of_coprime x hv hp1 (coprime_of_prime hv hpq hq ha)
  have hL1 : x.pow (-n) =
      PrimeFieldElement.pow ⟨(gcdExtended x.a.toNat x.p.toNat).2.1 % x.p, x.p⟩ n :=
    pow_neg_eval x _ hn hinv1
  have hL2 : PrimeFieldElement.pow
      ⟨(gcdExtended x.a.toNat x.p.toNat).2.1 % x.p, x.p⟩ n =
      .ok ⟨((gcdExtended x.a.toNat x.p.toNat).2.1 % x.p) ^ n.toNat % x.p, x.p⟩ :=
    pow_pos_eval _ hp0 hn
  have hR1 : x.pow n = .ok ⟨x.a ^ n.toNat % x.p, x.p⟩ := pow_pos_eval x hp0 hn
  -- the pow x n result is valid and coprime to the modulus
  have hyv : PrimeFieldElement.Valid ⟨x.a ^ n.toNat % x.p, x.p⟩ :=
    ⟨Int.emod_nonneg _ (by omega), Int.emod_lt_of_pos _ hp0⟩
  have hcast : x.a ^ n.toNat % x.p =
      ((x.a.toNat ^ n.toNat % x.p.toNat : Nat) : Int) := by
    push_cast
    rw [Int.toNat_of_nonneg hv1, Int.toNat_of_nonneg (by omega : (0:Int) ≤ x.p)]
  have hycop : Nat.gcd (x.a ^ n.toNat % x.p).toNat x.p.toNat = 1 := by
    rw [hcast, Int.toNat_natCast, ← Nat.gcd_rec]
    exact Nat.Coprime.pow_right n.toNat
      (Nat.coprime_comm.mp (coprime_of_prime hv hpq hq ha))
  obtain ⟨hy1, hy2⟩ := inverse_ok_of_coprime ⟨x.a ^ n.toNat % x.p, x.p⟩ hyv hp1 hycop
  -- both candidate inverses of pow x n agree
  have hkey : (x.a ^ n.toNat % x.p) *
      (((gcdExtended x.a.toNat x.p.toNat).2.1 % x.p) ^ n.toNat % x.p) % x.p = 1 := by
    have e1 : x.a * ((gcdExtended x.a.toNat x.p.toNat).2.1 % x.p) ≡ 1 [ZMOD x.p] := by
      show _ % _ = _ % _
      rw [hinv2, Int.emod_eq_of_lt (by omega) hp1]
    have e2 : (x.a * ((gcdExtended x.a.toNat x.p.toNat).2.1 % x.p)) ^ n.toNat ≡ 1
        [ZMOD x.p] := by
      simpa using e1.pow n.toNat
    have e3 : (x.a ^ n.toNat % x.p) *
        (((gcdExtended x.a.toNat x.p.toNat).2.1 % x.p) ^ n.toNat % x.p) ≡ 1
        [ZMOD x.p] := by
      calc (x.a ^ n.toNat % x.p) *
          (((gcdExtended x.a.toNat x.p.toNat).2.1 % x.p) ^ n.toNat % x.p)
          ≡ x.a ^ n.toNat *
            (((gcdExtended x.a.toNat x.p.toNat).2.1 % x.p) ^ n.toNat) [ZMOD x.p] :=
            Int.ModEq.mul (Int.emod_emod_of_dvd _ dvd_rfl)
              (Int.emod_emod_of_dvd _ dvd_rfl)
        _ = (x.a * ((gcdExtended x.a.toNat x.p.toNat).2.1 % x.p)) ^ n.toNat := by
            ring
        _ ≡ 1 [ZMOD x.p] := e2
    have e4 : (x.a ^ n.toNat % x.p) *
        (((gcdExtended x.a.toNat x.p.toNat).2.1 % x.p) ^ n.toNat % x.p) % x.p =
        1 % x.p := e3
    rw [Int.emod_eq_of_lt (by omega) hp1] at e4
    exact e4
  have huniq : (gcdExtended (x.a ^ n.toNat % x.p).toNat x.p.toNat).2.1 % x.p =
      ((gcdExtended x.a.toNat x.p.toNat).2.1 % x.p) ^ n.toNat % x.p := by
    refine inverse_unique hp1 (Int.emod_nonneg _ (by omega))
      (Int.emod_lt_of_pos _ hp0) (Int.emod_nonneg _ (by omega))
      (Int.emod_lt_of_pos _ hp0) hy2 hkey
  constructor
  · rw [hL1, hL2, hR1]
    show _ = PrimeFieldElement.inverse ⟨x.a ^ n.toNat % x.p, x.p⟩
    rw [hy1, huniq]
  · exact ⟨_, by rw [hL1, hL2]⟩

theorem pow_neg_consistency_witness :
    PrimeFieldElement.pow ⟨2, 7⟩ (-1) =
      (PrimeFieldElement.pow ⟨2, 7⟩ 1).bind PrimeFieldElement.inverse :=
  (pow_neg_consistency ⟨2, 7⟩ 7 1 (by decide) (by norm_num) (by norm_num)
    (by decide) (by decide)).1

/-- C9: a FieldElement exponent contributes exactly its raw residue as the
integer exponent — no modulus-compatibility check (the concrete instance has
moduli 3 and 5 and still succeeds) and no Fermat reduction of the exponent
mod (p - 1) (reducing 2 mod (3 - 1) would turn the result 0 into 1). -/
theorem powElem_raw_residue :
    (∀ x e : PrimeFieldElement, x.powElem e = x.pow e.a) ∧
    PrimeFieldElement.powElem ⟨0, 3⟩ ⟨2, 5⟩ = .ok ⟨0, 3⟩ ∧
    PrimeFieldElement.pow ⟨0, 3⟩ ((2 : Int) % ((3 : Int) - 1)) = .ok ⟨1, 3⟩ := by
  refine ⟨fun x e => rfl, ?_, ?_⟩ <;>
    simp [PrimeFieldElement.powElem, PrimeFieldElement.pow, PrimeFieldElement.mk']
